import Mathlib

set_option maxRecDepth 8000

/-!
Shallow embedding of the SIL AddressLowering pass
(lib/SILOptimizer/Mandatory/AddressLowering.cpp).

The embedding models the storage-allocation data structures
(`ValueStorage`, the value-storage table), the storage allocator's
per-value decision procedure (`allocateValue`, `findProjectionIntoUseImpl`,
`checkStorageDominates`), the address materializer
(`recursivelyMaterializeStorage`, `materializeAddress`), the merge-edge
rewriter (`findPhiMovePosition`, `materializeOperand`) and the module-level
driver (`runModule`).  Machine values (SILValue, ordinals, addresses) are
modelled with `Nat`-indexed entries of an explicit table; fallible paths
(assertions in the C++ source) are modelled with `Option`.
-/

namespace AddressLowering

/-- Ownership kinds of SIL values (external classification consumed by the
pass): Owned, Guaranteed, or Unowned/None. -/
inductive Ownership where
  | owned
  | guaranteed
  | unowned
deriving DecidableEq

/-- The shape of a value's defining operation, restricted to the cases the
pass's storage-projection oracles (`getProjectedDefOperand`,
`getReusedStorageOperand`, `doesNotNeedStackAllocation`) distinguish.
`fieldIdx` records the field index of an extraction, used when the def
projection's address computation is emitted. -/
inductive ValueKind where
  | beginBorrow
  | copyValue (isStoreCopy : Bool)
  | destructureStructResult (fieldIdx : Nat)
  | destructureTupleResult (fieldIdx : Nat) (fromPseudoCallResult : Bool)
  | tupleExtract (fieldIdx : Nat) (fromApply : Bool)
  | structExtract (fieldIdx : Nat)
  | openExistentialValue
  | openExistentialBoxValue
  | uncheckedEnumData
  | uncheckedBitwiseCast
  | switchEnumResult
  | checkedCastBrFailureResult
  | loadBorrow
  | beginApply
  | phi
  | other
deriving DecidableEq

/-- Translation of `getProjectedDefOperand` (AddressLowering.cpp): true iff
the value's defining operation is guaranteed to directly project out of its
operand's storage.  Mirrors the `switch (value->getKind())`: begin_borrow,
store-copies, destructure results, tuple_extract not fed by an apply,
struct_extract, and open_existential[_box]_value. -/
def getProjectedDefOperandB : ValueKind → Bool
  | .beginBorrow => true
  | .copyValue isStoreCopy => isStoreCopy
  | .destructureStructResult _ => true
  | .destructureTupleResult _ fromPseudoCallResult => !fromPseudoCallResult
  | .tupleExtract _ fromApply => !fromApply
  | .structExtract _ => true
  | .openExistentialValue => true
  | .openExistentialBoxValue => true
  | _ => false

/-- Translation of `getReusedStorageOperand` (AddressLowering.cpp): true iff
the value is always rewritten in place of its operand's storage:
open_existential[_box]_value, unchecked_enum_data, unchecked_bitwise_cast,
and the terminator results of switch_enum and of checked_cast_br's failure
destination. -/
def getReusedStorageOperandB : ValueKind → Bool
  | .openExistentialValue => true
  | .openExistentialBoxValue => true
  | .uncheckedEnumData => true
  | .uncheckedBitwiseCast => true
  | .switchEnumResult => true
  | .checkedCastBrFailureResult => true
  | _ => false

/-- Translation of `doesNotNeedStackAllocation` (AddressLowering.cpp): true
iff the value is defined by a load_borrow or begin_apply instruction. -/
def doesNotNeedStackAllocation : ValueKind → Bool
  | .loadBorrow => true
  | .beginApply => true
  | _ => false

/-- Addresses produced while lowering.  A root address is either an
`alloc_stack` or an indirect function argument; projection instructions
(struct_element_addr, tuple_element_addr, init_enum_data_addr,
init_existential_addr) produce derived addresses. -/
inductive Address where
  | allocStack (id : Nat)
  | funcArg (idx : Nat)
  | proj (parent : Address) (fieldIdx : Nat)
deriving DecidableEq

/-- Modelled from the spec: the `ValueStorage` record is declared in the
pass's header (AddressLowering.h), which is not part of the sources here;
its fields are reconstructed from the spec's data model (§3: root address,
projection kind, projection target, operand position) and from every use in
AddressLowering.cpp.  `projectedStorageID = none` models `InvalidID` and
`projectedOperandNum = none` models `InvalidOper`. -/
structure ValueStorage where
  projectedStorageID : Option Nat
  projectedOperandNum : Option Nat
  storageAddress : Option Address
  isDefProjection : Bool
  isUseProjection : Bool
  initializesEnum : Bool
  isRewritten : Bool
deriving DecidableEq

/-- A storage entry with no decision recorded yet (the state in which the
opaque-value collector creates it). -/
def emptyStorage : ValueStorage :=
  ⟨none, none, none, false, false, false, false⟩

/-- Modelled from the spec: `ValueStorage::isAllocated` (header not in the
sources); storage is allocated once it has a root address or is marked as
either kind of projection. -/
def ValueStorage.isAllocated (s : ValueStorage) : Bool :=
  s.storageAddress.isSome || s.isUseProjection || s.isDefProjection

/-- Modelled from the spec: `ValueStorage::isProjection` (header not in the
sources). -/
def ValueStorage.isProjection (s : ValueStorage) : Bool :=
  s.isUseProjection || s.isDefProjection

/-- Modelled from the spec: `ValueStorage::isComposingUseProjection` (header
not in the sources); a use projection into a composing aggregate carries the
operand position, cf. `recordComposingUseProjection` which stores
`projectedOperandNum` and then asserts `!isPhiProjection()`. -/
def ValueStorage.isComposingUseProjection (s : ValueStorage) : Bool :=
  s.isUseProjection && s.projectedOperandNum.isSome

/-- Modelled from the spec: `ValueStorage::isPhiProjection` (header not in
the sources); a phi use projection has no operand position, cf.
`recordPhiUseProjection` which requires `projectedOperandNum == InvalidOper`
and then asserts `isPhiProjection()`. -/
def ValueStorage.isPhiProjection (s : ValueStorage) : Bool :=
  s.isUseProjection && s.projectedOperandNum.isNone

/-- Copy of a storage entry with its (root or memoized) address set. -/
def ValueStorage.withAddress (s : ValueStorage) (a : Address) : ValueStorage :=
  ⟨s.projectedStorageID, s.projectedOperandNum, some a, s.isDefProjection,
    s.isUseProjection, s.initializesEnum, s.isRewritten⟩

/-- Copy of a storage entry with its address cleared
(cf. `OpaqueStorageAllocation::removeAllocation`). -/
def ValueStorage.withoutAddress (s : ValueStorage) : ValueStorage :=
  ⟨s.projectedStorageID, s.projectedOperandNum, none, s.isDefProjection,
    s.isUseProjection, s.initializesEnum, s.isRewritten⟩

/-- One row of the value-storage table: the mapped value's shape (whether it
is a function argument, and its defining operation's kind) together with its
`ValueStorage`. -/
structure VSEntry where
  isFuncArg : Bool
  kind : ValueKind
  storage : ValueStorage
deriving DecidableEq

/-- An unallocated table row for an ordinary instruction result. -/
def emptyEntry : VSEntry :=
  ⟨false, .other, emptyStorage⟩

/-- The `ValueStorageMap`'s insertion-ordered vector, indexed by ordinal. -/
abbrev Table := List VSEntry

/-- Update the storage part of the table row at ordinal `i`. -/
def modifyStorage (tbl : Table) (i : Nat) (f : ValueStorage → ValueStorage) :
    Table :=
  match tbl.get? i with
  | none => tbl
  | some e => tbl.set i ⟨e.isFuncArg, e.kind, f e.storage⟩

/-- Translation of `ValueStorageMap::recordDefProjection`: mark ordinal `i`
as a projection out of the storage of its operand `src`. -/
def recordDefProjection (tbl : Table) (i src : Nat) : Table :=
  modifyStorage tbl i fun s =>
    ⟨some src, s.projectedOperandNum, s.storageAddress, true,
      s.isUseProjection, s.initializesEnum, s.isRewritten⟩

/-- Translation of `ValueStorageMap::recordComposingUseProjection`: mark
ordinal `i` as coalesced with operand `opNum` of the composing user value
`user`; `userIsEnum` mirrors setting `initializesEnum` when the user's type
is an enum.  `none` models the assertion `!storage.isAllocated()` and the
operand-overflow assertion (`projectedOperandNum` is a 16-bit field)
failing. -/
def recordComposingUseProjection (tbl : Table) (i user opNum : Nat)
    (userIsEnum : Bool) : Option Table :=
  match tbl.get? i with
  | none => none
  | some e =>
    if e.storage.isAllocated then none
    else if 65535 < opNum then none
    else
      some (tbl.set i ⟨e.isFuncArg, e.kind,
        ⟨some user, some opNum, e.storage.storageAddress,
          e.storage.isDefProjection, true,
          e.storage.initializesEnum || userIsEnum, e.storage.isRewritten⟩⟩)

/-- Translation of `ValueStorageMap::recordPhiUseProjection`: mark ordinal
`i` (a branch operand) as coalesced with the phi at ordinal `phi`.  `none`
models the assertions `!storage.isAllocated()` and
`projectedOperandNum == InvalidOper` failing. -/
def recordPhiUseProjection (tbl : Table) (i phi : Nat) : Option Table :=
  match tbl.get? i with
  | none => none
  | some e =>
    if e.storage.isAllocated then none
    else if e.storage.projectedOperandNum.isSome then none
    else
      some (tbl.set i ⟨e.isFuncArg, e.kind,
        ⟨some phi, none, e.storage.storageAddress,
          e.storage.isDefProjection, true, e.storage.initializesEnum,
          e.storage.isRewritten⟩⟩)

/-- Translation of
`OpaqueStorageAllocation::createStackAllocationStorage`: give ordinal `i` a
fresh `alloc_stack` root address. -/
def createStackAllocationStorage (tbl : Table) (i allocId : Nat) : Table :=
  modifyStorage tbl i fun s => s.withAddress (.allocStack allocId)

/-- Translation of `OpaqueStorageAllocation::removeAllocation`: delete the
temporary `alloc_stack` given to a phi operand that is about to be coalesced
with its phi.  `none` models `cast<AllocStackInst>(storage.storageAddress)`
failing (the entry must currently hold an `alloc_stack` root address). -/
def removeAllocation (tbl : Table) (i : Nat) : Option Table :=
  match tbl.get? i with
  | none => none
  | some e =>
    match e.storage.storageAddress with
    | some (.allocStack _) =>
      some (tbl.set i ⟨e.isFuncArg, e.kind, e.storage.withoutAddress⟩)
    | _ => none

/-- Modelled from the spec: `ValueStorageMap::getBaseStorage` (header not in
the sources).  Walks the projection chain from ordinal `i` to the
non-projecting root, per the spec's invariant that chains terminate at a
root; with `allowInitEnum = false` the walk fails on storage that
initializes an enum (cf. the comment in `findProjectionIntoUseImpl`: enum
storage cannot be reused across multiple subobjects).  `fuel` bounds the
walk; callers pass `tbl.length + 1`, enough for any acyclic chain. -/
def getBaseStorage (tbl : Table) (allowInitEnum : Bool) :
    Nat → Nat → Option Nat
  | 0, _ => none
  | fuel + 1, i =>
    match tbl.get? i with
    | none => none
    | some e =>
      if !allowInitEnum && e.storage.initializesEnum then none
      else if e.storage.isProjection then
        match e.storage.projectedStorageID with
        | none => none
        | some j => getBaseStorage tbl allowInitEnum fuel j
      else some i

/-- The outcome of `OpaqueStorageAllocation::allocateValue` for one
non-phi opaque value, in the order the source checks them. -/
inductive AllocDecision where
  | skipRewritten
  | skipReusedStorage
  | skipNoStackNeeded
  | defProjection
  | fatalGuaranteed
  | useProjection
  | freshAllocation
deriving DecidableEq

/-- The inputs of `allocateValue`'s decision for one value: its defining
operation's kind, its ownership, whether its storage entry was
pre-rewritten (the fake loads standing for incoming indirect function
arguments), and whether `findValueProjectionIntoUse` finds a use whose
storage this value may share. -/
structure AllocValue where
  kind : ValueKind
  ownership : Ownership
  storageIsRewritten : Bool
  findsUseProjection : Bool
deriving DecidableEq

/-- Translation of `OpaqueStorageAllocation::allocateValue` (the storage
decision for a single non-phi opaque value), preserving the source's check
order: pre-rewritten entries are skipped; values with a reused-storage
operand are skipped; load_borrow/begin_apply values need no stack storage;
def projections are recorded; then a guaranteed value is a fatal error
(`llvm::report_fatal_error("^^^ guaranteed values must reuse storage")`);
then a use projection is searched; otherwise fresh stack storage is
created. -/
def allocateValue (v : AllocValue) : AllocDecision :=
  if v.storageIsRewritten then .skipRewritten
  else if getReusedStorageOperandB v.kind then .skipReusedStorage
  else if doesNotNeedStackAllocation v.kind then .skipNoStackNeeded
  else if getProjectedDefOperandB v.kind then .defProjection
  else if v.ownership = .guaranteed then .fatalGuaranteed
  else if v.findsUseProjection then .useProjection
  else .freshAllocation

/-- One use of the value whose storage is being allocated, as
`findProjectionIntoUseImpl` sees it: the composing user's ordinal as
returned by `getProjectedUseValue` (`none` when the user composes nothing),
and the operand's position in that user. -/
structure UseCandidate where
  userValue : Option Nat
  operandNumber : Nat
deriving DecidableEq

/-- The definition site of an incoming value checked by
`checkStorageDominates`: an instruction or a block argument (phi or
terminator result), identified by an abstract site id. -/
inductive DefSite where
  | inst (id : Nat)
  | blockArg (blockId : Nat)
deriving DecidableEq

/-- Abstract dominance oracle (the pass consumes a precomputed
`DominanceInfo`).  `properlyDominatesInst a d` stands for
`domInfo->properlyDominates(allocInst a, defInst d)` and
`properlyDominatesBlock a b` for
`domInfo->properlyDominates(allocInst a's block, block b)`. -/
structure DomRel where
  properlyDominatesInst : Nat → Nat → Bool
  properlyDominatesBlock : Nat → Nat → Bool

/-- The per-site check performed inside
`OpaqueStorageAllocation::checkStorageDominates`: an instruction-defined
incoming value requires the `alloc_stack` to properly dominate its defining
instruction, while a block argument requires the allocation's block to
properly dominate the argument's block. -/
def dominatesSite (dom : DomRel) (allocId : Nat) : DefSite → Bool
  | .inst d => dom.properlyDominatesInst allocId d
  | .blockArg b => dom.properlyDominatesBlock allocId b

/-- Translation of `OpaqueStorageAllocation::checkStorageDominates`: every
incoming value must be covered by the candidate `alloc_stack`. -/
def checkStorageDominates (dom : DomRel) (allocId : Nat)
    (incomingValues : List DefSite) : Bool :=
  incomingValues.all (dominatesSite dom allocId)

/-- Translation of `OpaqueStorageAllocation::findProjectionIntoUseImpl`:
scan the value's uses in order; for each use that composes the value into a
user (`getProjectedUseValue`), skip preposterous operand numbers
(`> UINT16_MAX`), resolve the user's base storage
(`getBaseStorage(userValue, !intoPhi)`), and accept the use if the base
storage's root address is an `alloc_stack` that dominates all incoming
values, or an indirect function argument (which dominates everything).
Returns the accepted use and the root's ordinal. -/
def findProjectionIntoUseImpl (tbl : Table) (dom : DomRel)
    (uses : List UseCandidate) (incomingValues : List DefSite)
    (intoPhi : Bool) : Option (UseCandidate × Nat) :=
  match uses with
  | [] => none
  | use :: rest =>
    match use.userValue with
    | none => findProjectionIntoUseImpl tbl dom rest incomingValues intoPhi
    | some u =>
      if 65535 < use.operandNumber then
        findProjectionIntoUseImpl tbl dom rest incomingValues intoPhi
      else
        match getBaseStorage tbl (!intoPhi) (tbl.length + 1) u with
        | none => findProjectionIntoUseImpl tbl dom rest incomingValues intoPhi
        | some r =>
          match tbl.get? r with
          | none => findProjectionIntoUseImpl tbl dom rest incomingValues intoPhi
          | some re =>
            match re.storage.storageAddress with
            | some (.allocStack a) =>
              if checkStorageDominates dom a incomingValues then some (use, r)
              else findProjectionIntoUseImpl tbl dom rest incomingValues intoPhi
            | some (.funcArg _) => some (use, r)
            | _ => findProjectionIntoUseImpl tbl dom rest incomingValues intoPhi

/-- Translation of `OpaqueStorageAllocation::findValueProjectionIntoUse`:
the non-phi wrapper passes the value itself as the only incoming value. -/
def findValueProjectionIntoUse (tbl : Table) (dom : DomRel)
    (uses : List UseCandidate) (valueSite : DefSite) :
    Option (UseCandidate × Nat) :=
  findProjectionIntoUseImpl tbl dom uses [valueSite] false

/-- Translation of `OpaqueStorageAllocation::findPhiProjectionIntoUse`: the
phi wrapper passes the coalesced incoming values. -/
def findPhiProjectionIntoUse (tbl : Table) (dom : DomRel)
    (uses : List UseCandidate) (incomingValues : List DefSite) :
    Option (UseCandidate × Nat) :=
  findProjectionIntoUseImpl tbl dom uses incomingValues true

/-- One phase of `OpaqueStorageAllocation::allocateOpaqueStorage`'s visit
order: the table (represented by each ordinal's is-phi flag, in collection
order) is iterated in reverse (`llvm::reverse(pass.valueStorageMap)`),
keeping the ordinals whose phi-ness matches the phase. -/
def allocPhaseOrder (phasePhi : Bool) (isPhiTbl : List Bool) : List Nat :=
  ((isPhiTbl.enum.reverse).filter fun p => p.2 == phasePhi).map Prod.fst

/-- Translation of `OpaqueStorageAllocation::allocateOpaqueStorage`'s visit
order: one reverse pass over the table calling `allocateValue` on every
non-phi entry, then a second reverse pass calling `allocatePhi` on every
phi entry. -/
def allocateOpaqueStorageOrder (isPhiTbl : List Bool) : List Nat :=
  allocPhaseOrder false isPhiTbl ++ allocPhaseOrder true isPhiTbl

/-- One storage-table mutation performed during storage allocation.
`phiProj` is the pair `removeAllocation` followed by
`recordPhiUseProjection` that `allocatePhi` performs for each coalesced
phi operand; `fatal` marks `report_fatal_error`. -/
inductive AllocStep where
  | stackAlloc (i allocId : Nat)
  | defProj (i src : Nat)
  | useProj (i user opNum : Nat) (userIsEnum : Bool)
  | phiProj (i phi : Nat)
  | fatal (i : Nat)
deriving DecidableEq

/-- Apply one allocation step to the table; a step whose source-level
assertion would fail leaves the table unchanged (valid runs never hit the
assertions). -/
def applyStepD (tbl : Table) : AllocStep → Table
  | .stackAlloc i allocId => createStackAllocationStorage tbl i allocId
  | .defProj i src => recordDefProjection tbl i src
  | .useProj i user opNum userIsEnum =>
    (recordComposingUseProjection tbl i user opNum userIsEnum).getD tbl
  | .phiProj i phi =>
    ((removeAllocation tbl i).bind fun t1 =>
      recordPhiUseProjection t1 i phi).getD tbl
  | .fatal _ => tbl

/-- Description of one collected opaque value, as the storage-allocation
driver consumes it. -/
structure DriverValue where
  isPhi : Bool
  kind : ValueKind
  ownership : Ownership
  preRewritten : Bool
  defOperand : Option Nat
  uses : List UseCandidate
  site : DefSite
deriving DecidableEq

/-- A function configuration for the storage-allocation driver: the
collected values in collection (RPO) order, the dominance oracle, and the
coalescing decisions of the external `PhiStorageOptimizer` (modelled from
the spec: coalesce incoming operands wherever none of them interferes),
given as phi ordinal paired with its coalesced operand ordinals. -/
structure DriverConfig where
  values : List DriverValue
  dom : DomRel
  coalesced : List (Nat × List Nat)

/-- The allocation steps `allocateValue` performs for the non-phi value at
ordinal `i` against the current table. -/
def allocateValueSteps (tbl : Table) (dom : DomRel) (i : Nat)
    (v : DriverValue) : List AllocStep :=
  let found := findValueProjectionIntoUse tbl dom v.uses v.site
  match allocateValue ⟨v.kind, v.ownership, v.preRewritten, found.isSome⟩ with
  | .defProjection => [.defProj i (v.defOperand.getD 0)]
  | .useProjection =>
    match found with
    | some (use, _) => [.useProj i (use.userValue.getD 0) use.operandNumber false]
    | none => []
  | .freshAllocation => [.stackAlloc i i]
  | .fatalGuaranteed => [.fatal i]
  | _ => []

/-- The allocation steps `allocatePhi` performs for the phi value at
ordinal `i`: first the phi's own storage (a use projection over the
coalesced incoming values, else fresh stack storage), then, for every
coalesced operand, the removal of its temporary allocation and the
recording of a phi use projection. -/
def allocatePhiSteps (tbl : Table) (dom : DomRel) (i : Nat)
    (v : DriverValue) (coalesced : List Nat) (sites : List DefSite) :
    List AllocStep :=
  (match findPhiProjectionIntoUse tbl dom v.uses sites with
    | some (use, _) => [.useProj i (use.userValue.getD 0) use.operandNumber false]
    | none => [.stackAlloc i i]) ++
  coalesced.map fun op => .phiProj op i

/-- Look up the coalesced-operand set the external coalescer chose for the
phi at ordinal `i`. -/
def coalescedOperandsOf (cfg : DriverConfig) (i : Nat) : List Nat :=
  (cfg.coalesced.find? (fun p => p.1 == i)).map Prod.snd |>.getD []

/-- The definition sites of the given ordinals in the configuration. -/
def sitesOf (cfg : DriverConfig) (ords : List Nat) : List DefSite :=
  ords.filterMap fun o => (cfg.values.get? o).map DriverValue.site

/-- Run one allocation phase: fold over the collected values in reverse
order, emitting and applying each value's steps when its phi-ness matches
the phase. -/
def runAllocPhase (cfg : DriverConfig) (phasePhi : Bool)
    (start : Table × List AllocStep) : Table × List AllocStep :=
  cfg.values.enum.reverse.foldl
    (fun acc p =>
      if p.2.isPhi != phasePhi then acc
      else
        let steps :=
          if phasePhi then
            allocatePhiSteps acc.1 cfg.dom p.1 p.2
              (coalescedOperandsOf cfg p.1)
              (sitesOf cfg (coalescedOperandsOf cfg p.1))
          else allocateValueSteps acc.1 cfg.dom p.1 p.2
        (steps.foldl applyStepD acc.1, acc.2 ++ steps))
    start

/-- Translation of `OpaqueStorageAllocation::allocateOpaqueStorage` as a
step-trace producer: phase one allocates every non-phi value, phase two
every phi, both in reverse collection order. -/
def allocateOpaqueStorageRun (cfg : DriverConfig) : Table × List AllocStep :=
  runAllocPhase cfg true
    (runAllocPhase cfg false (cfg.values.map (fun _ => emptyEntry), []))

/-- Whether an allocation step assigns a storage decision (root allocation,
def projection, or use projection) to the entry at ordinal `i`. -/
def assignsEntry (i : Nat) : AllocStep → Bool
  | .stackAlloc j _ => j == i
  | .defProj j _ => j == i
  | .useProj j _ _ _ => j == i
  | .phiProj j _ => j == i
  | .fatal _ => false

/-- How many times a run's steps assign a storage decision to ordinal `i`. -/
def countAssigns (steps : List AllocStep) (i : Nat) : Nat :=
  (steps.filter (assignsEntry i)).length

/-- Write the materialized address back into the storage entry unless the
materialization was requested for a phi-operand edge; translation of the
`recordAddress` lambda in
`AddressMaterialization::recursivelyMaterializeStorage`. -/
def recordAddressInto (intoPhiOperand : Bool) (tbl : Table) (i : Nat)
    (a : Address) : Table :=
  if intoPhiOperand then tbl
  else modifyStorage tbl i fun s => s.withAddress a

/-- Translation of `AddressMaterialization::recursivelyMaterializeStorage`
(state-passing; the third component lists the address-computation
instructions emitted).  With `intoPhiOperand = false` a cached address is
returned immediately and the resolved address is memoized; with
`intoPhiOperand = true` nothing is written back.  A composing use
projection recurses into the user (emitting one subobject address
computation, or directly reusing a rewritten function argument's storage);
a phi projection recurses into the phi with `intoPhiOperand = true`; a
non-projection returns its root address.  `fuel` bounds the projection
chain; `none` models a source assertion failing or fuel exhaustion. -/
def recursivelyMaterializeStorage (fuel : Nat) (tbl : Table) (i : Nat)
    (intoPhiOperand : Bool) : Option (Address × Table × List Address) :=
  match fuel with
  | 0 => none
  | fuel + 1 =>
    match tbl.get? i with
    | none => none
    | some e =>
      match if intoPhiOperand then none else e.storage.storageAddress with
      | some a => some (a, tbl, [])
      | none =>
        if e.storage.isComposingUseProjection then
          match e.storage.projectedStorageID, e.storage.projectedOperandNum with
          | some u, some opNum =>
            match tbl.get? u with
            | none => none
            | some ue =>
              if ue.isFuncArg then
                match ue.storage.storageAddress with
                | none => none
                | some ua =>
                  if ue.storage.isRewritten then
                    some (ua, recordAddressInto intoPhiOperand tbl i ua, [])
                  else none
              else
                match recursivelyMaterializeStorage fuel tbl u intoPhiOperand with
                | none => none
                | some (ua, tbl1, em) =>
                  some (Address.proj ua opNum,
                    recordAddressInto intoPhiOperand tbl1 i
                      (Address.proj ua opNum),
                    em ++ [Address.proj ua opNum])
          | _, _ => none
        else if e.storage.isPhiProjection then
          match e.storage.projectedStorageID with
          | none => none
          | some p =>
            match recursivelyMaterializeStorage fuel tbl p true with
            | none => none
            | some (pa, tbl1, em) =>
              some (pa, recordAddressInto intoPhiOperand tbl1 i pa, em)
        else if e.storage.isDefProjection then none
        else
          match e.storage.storageAddress with
          | none => none
          | some a => some (a, tbl, [])

/-- Shared part of `materializeStructExtract` and
`materializeTupleExtract`: look up the aggregate operand's materialized
address and emit one element-address computation. -/
def materializeExtract (tbl : Table) (e : VSEntry) (fieldIdx : Nat) :
    Option (Address × List Address) :=
  match e.storage.projectedStorageID with
  | none => none
  | some src =>
    match tbl.get? src with
    | none => none
    | some se =>
      match se.storage.storageAddress with
      | none => none
      | some sa => some (.proj sa fieldIdx, [.proj sa fieldIdx])

/-- Translation of `AddressMaterialization::materializeDefProjection` for a
value at ordinal `i` whose storage projects out of its operand's storage
(recorded in `projectedStorageID`): a store-copy reuses the operand's
materialized address verbatim; destructure results and struct/tuple
extracts emit one element-address computation at the extract's field
index.  Returns the address and the emitted computations. -/
def materializeDefProjection (tbl : Table) (i : Nat) :
    Option (Address × List Address) :=
  match tbl.get? i with
  | none => none
  | some e =>
    match e.kind with
    | .copyValue true =>
      match e.storage.projectedStorageID with
      | none => none
      | some src =>
        match tbl.get? src with
        | none => none
        | some se =>
          match se.storage.storageAddress with
          | none => none
          | some sa => some (sa, [])
    | .destructureStructResult fieldIdx => materializeExtract tbl e fieldIdx
    | .destructureTupleResult fieldIdx _ => materializeExtract tbl e fieldIdx
    | .structExtract fieldIdx => materializeExtract tbl e fieldIdx
    | .tupleExtract fieldIdx _ => materializeExtract tbl e fieldIdx
    | _ => none

/-- Translation of `AddressMaterialization::materializeAddress`: return the
cached address when present; otherwise materialize a use projection via
`recursivelyMaterializeStorage` (not for a phi operand) or a def projection
via `materializeDefProjection`, recording the result as the value's
storage address. -/
def materializeAddress (fuel : Nat) (tbl : Table) (i : Nat) :
    Option (Address × Table × List Address) :=
  match tbl.get? i with
  | none => none
  | some e =>
    match e.storage.storageAddress with
    | some a => some (a, tbl, [])
    | none =>
      if e.storage.isUseProjection then
        recursivelyMaterializeStorage fuel tbl i false
      else if e.storage.isDefProjection then
        match materializeDefProjection tbl i with
        | none => none
        | some (a, em) =>
          some (a, modifyStorage tbl i (fun s => s.withAddress a), em)
      else none

/-- Instructions of a phi predecessor block as the merge-edge rewriter sees
them; `copyAddr src dest phiMove` is a `copy_addr [take] [initialization]`
whose operands are abstracted to their access-base storage ids, with
`phiMove` true when the rewriter itself created it (membership in
`PhiRewriter::phiMoves`). -/
inductive PInst where
  | copyAddr (srcBase destBase : Nat) (phiMove : Bool)
  | allocStack (slot : Nat)
  | deallocStack (slot : Nat)
  | branch
deriving DecidableEq

/-- Result of `PhiRewriter::findPhiMovePosition`: the latest insertion
position (an index into the predecessor block's pre-branch instruction
list) and whether an anti-dependence cycle was found. -/
structure MovePosition where
  latestMovePos : Nat
  foundAntiDependenceCycle : Bool
deriving DecidableEq

/-- The backward scan inside `PhiRewriter::findPhiMovePosition`, walking the
already-emitted phi moves that immediately precede the branch (`revPre` is
the pre-branch instruction list reversed; `i` is one past the index of the
instruction under scrutiny).  The scan stops at the first instruction that
is not a phi move.  A move reading from the phi's base storage fixes the
earliest insertion point; a move writing the operand's base storage drags
the latest insertion point before it, and a cycle is flagged when both
constraints conflict. -/
def findPhiMoveAux (phiBase operBase : Nat) :
    List PInst → Nat → Bool → MovePosition → MovePosition
  | [], _, _, pos => pos
  | .copyAddr src dest true :: rest, i, foundEarliest, pos =>
    let fe := foundEarliest || (src == phiBase)
    let pos1 :=
      if dest == operBase then
        ⟨i - 1, pos.foundAntiDependenceCycle || fe⟩
      else pos
    findPhiMoveAux phiBase operBase rest (i - 1) fe pos1
  | _ :: _, _, _, pos => pos

/-- Translation of `PhiRewriter::findPhiMovePosition`: scan backward from
the branch over the block's trailing phi moves. -/
def findPhiMovePosition (pre : List PInst) (phiBase operBase : Nat) :
    MovePosition :=
  findPhiMoveAux phiBase operBase pre.reverse pre.length false
    ⟨pre.length, false⟩

/-- Insert instructions before position `n` of a block's pre-branch
instruction list (the builder inserts them in creation order at the
insertion point). -/
def insertAt (n : Nat) (new : List PInst) (l : List PInst) : List PInst :=
  l.take n ++ new ++ l.drop n

/-- Translation of `PhiRewriter::materializeOperand` for the phi operand
with storage `operStorage` flowing into the phi at ordinal `phiOrd`
(operand and phi base addresses and a fresh temporary slot are given):
if the operand was coalesced with this very phi, nothing is emitted;
otherwise, without an anti-dependence cycle, one phi move from the
operand's storage to the phi's storage is inserted at the latest legal
position; with a cycle, a temporary `alloc_stack` and a move into it are
inserted at that position, and a move from the temporary to the phi's
storage plus the temporary's `dealloc_stack` are inserted immediately
before the branch.  Returns the block's new pre-branch instruction list. -/
def materializeOperand (pre : List PInst) (operStorage : ValueStorage)
    (phiOrd operBase phiBase temp : Nat) : List PInst :=
  if operStorage.isPhiProjection &&
      operStorage.projectedStorageID == some phiOrd then pre
  else
    let pos := findPhiMovePosition pre phiBase operBase
    if !pos.foundAntiDependenceCycle then
      insertAt pos.latestMovePos [.copyAddr operBase phiBase true] pre
    else
      insertAt pos.latestMovePos
        [.allocStack temp, .copyAddr operBase temp true] pre ++
        [.copyAddr temp phiBase true, .deallocStack temp]

/-- Number of memory-to-memory moves (`copy_addr`) in an instruction
list. -/
def moveCount (l : List PInst) : Nat :=
  (l.filter fun inst =>
    match inst with
    | .copyAddr _ _ _ => true
    | _ => false).length

/-- Number of `alloc_stack` instructions in an instruction list. -/
def allocCount (l : List PInst) : Nat :=
  (l.filter fun inst =>
    match inst with
    | .allocStack _ => true
    | _ => false).length

/-- One formal parameter of a function at the canonical (opaque-values)
stage: whether its convention is formally indirect, and whether it is
indirect at the SIL level before lowering
(`fnConv.isSILIndirect(param)`). -/
structure ParamInfo where
  formallyIndirect : Bool
  silIndirect : Bool
deriving DecidableEq

/-- A function as `AddressLowering::runOnFunction` observes it: its
parameters, how many opaque (address-only) values its body contains, how
many unreachable blocks it has, how many indirect results its lowered
convention has, its direct-result count, how many returns return an owned
multiply-used tuple (canonicalized by `canonicalizeReturnValues`), and how
many of its apply sites have formally indirect arguments or results
(collected into `indirectApplies`). -/
structure FunctionM where
  params : List ParamInfo
  opaqueValueCount : Nat
  unreachableBlockCount : Nat
  loweredIndirectResultCount : Nat
  directResultCount : Nat
  multiUseOwnedTupleReturnCount : Nat
  indirectApplyCount : Nat
deriving DecidableEq

/-- Mutations made by `removeUnreachableBlocks`: each unreachable block is
deleted. -/
def removeUnreachableBlocksChangeCount (f : FunctionM) : Nat :=
  f.unreachableBlockCount

/-- Mutations made by `convertDirectToIndirectFunctionArgs`: every
parameter with `param.isFormalIndirect() && !fnConv.isSILIndirect(param)`
is replaced by an address-typed argument and a load is inserted, whether
or not the parameter's type is address-only. -/
def convertDirectToIndirectFunctionArgsChangeCount (f : FunctionM) : Nat :=
  (f.params.filter fun p => p.formallyIndirect && !p.silIndirect).length

/-- Mutations made by `insertIndirectReturnArgs`: one new function argument
per indirect result of the lowered convention. -/
def insertIndirectReturnArgsChangeCount (f : FunctionM) : Nat :=
  f.loweredIndirectResultCount

/-- Mutations made by `OpaqueValueVisitor::canonicalizeReturnValues`: with
fewer than two direct results nothing happens; otherwise each return of an
owned tuple that has other uses gets a destructure/tuple pair. -/
def canonicalizeReturnValuesChangeCount (f : FunctionM) : Nat :=
  if f.directResultCount < 2 then 0 else f.multiUseOwnedTupleReturnCount

/-- Mutations made by `rewriteFunction`: every opaque value's definition
and uses are rewritten, and every apply with indirect conventions is
rewritten. -/
def rewriteFunctionChangeCount (f : FunctionM) : Nat :=
  f.opaqueValueCount + f.indirectApplyCount

/-- Translation of `AddressLowering::runOnFunction` at the
did-anything-change level, in the source's phase order:
`removeUnreachableBlocks`, `prepareValueStorage`
(`convertDirectToIndirectFunctionArgs`, `insertIndirectReturnArgs`,
collection with `canonicalizeReturnValues`), allocation, and
`rewriteFunction`. -/
def runOnFunctionChangeCount (f : FunctionM) : Nat :=
  removeUnreachableBlocksChangeCount f +
    convertDirectToIndirectFunctionArgsChangeCount f +
    insertIndirectReturnArgsChangeCount f +
    canonicalizeReturnValuesChangeCount f +
    rewriteFunctionChangeCount f

/-- A SIL module as `AddressLowering::run` observes it: the
lowered-addresses stage flag and the module's functions. -/
structure ModuleM where
  loweredAddresses : Bool
  functions : List FunctionM
deriving DecidableEq

/-- Translation of `AddressLowering::run`: if the module already uses
lowered addresses, do nothing; otherwise run the per-function
transformation (abstracted as `transform`) on every function and then set
the module's lowered-addresses flag. -/
def runModule (transform : FunctionM → FunctionM) (m : ModuleM) : ModuleM :=
  if m.loweredAddresses then m
  else ⟨true, m.functions.map transform⟩

/-- One projection edge of the storage table: ordinal `i`'s storage is a
projection whose target is ordinal `j`. -/
def chainStep (tbl : Table) (i j : Nat) : Prop :=
  ∃ e, tbl.get? i = some e ∧ e.storage.isProjection = true ∧
    e.storage.projectedStorageID = some j

/-- Ordinal `j` lies (strictly) downstream of ordinal `i` on a projection
chain. -/
def ChainReaches (tbl : Table) : Nat → Nat → Prop :=
  Relation.TransGen (chainStep tbl)

/-- No projection chain of the table returns to its starting entry. -/
def Acyclic (tbl : Table) : Prop :=
  ∀ i, ¬ ChainReaches tbl i i

/-- No storage entry is simultaneously a def projection and a use
projection. -/
def ExclusiveKinds (tbl : Table) : Prop :=
  ∀ i e, tbl.get? i = some e →
    ¬(e.storage.isDefProjection = true ∧ e.storage.isUseProjection = true)

/-- During allocation, storage marked as a projection holds no directly
materialized root address. -/
def ProjectionsUnmaterialized (tbl : Table) : Prop :=
  ∀ i e, tbl.get? i = some e → e.storage.isProjection = true →
    e.storage.storageAddress = none

/-- The storage tables reachable by the storage allocator's mutations, with
each mutation's source-level preconditions: fresh stack storage and def
projections are only given to unallocated entries (and a def projection's
operand is a distinct, not-yet-visited entry); a composing use projection
is only recorded after `getBaseStorage` resolved the user's chain to a
root owning an address; a phi coalescing (`removeAllocation` plus
`recordPhiUseProjection`) is only performed by `allocatePhi` for an
operand whose storage does not interfere with the phi (modelled from the
spec: the external `PhiStorageOptimizer` coalesces only non-interfering
operands, so the phi's storage chain cannot pass through the operand). -/
inductive ReachableTable : Table → Prop where
  | init (n : Nat) : ReachableTable (List.replicate n emptyEntry)
  | stackAlloc {tbl : Table} {i allocId : Nat} {e : VSEntry} :
      ReachableTable tbl → tbl.get? i = some e →
      e.storage.isAllocated = false →
      ReachableTable (createStackAllocationStorage tbl i allocId)
  | defProj {tbl : Table} {i src : Nat} {e es : VSEntry} :
      ReachableTable tbl → tbl.get? i = some e →
      e.storage.isAllocated = false → tbl.get? src = some es →
      es.storage.isAllocated = false → i ≠ src →
      ReachableTable (recordDefProjection tbl i src)
  | useProj {tbl tbl1 : Table} {i user opNum r : Nat} {re : VSEntry}
      {userIsEnum allowInitEnum : Bool} :
      ReachableTable tbl →
      getBaseStorage tbl allowInitEnum (tbl.length + 1) user = some r →
      tbl.get? r = some re → re.storage.storageAddress.isSome = true →
      recordComposingUseProjection tbl i user opNum userIsEnum = some tbl1 →
      ReachableTable tbl1
  | phiCoalesce {tbl tbl1 tbl2 : Table} {i phi : Nat} :
      ReachableTable tbl → ¬ ChainReaches tbl phi i → phi ≠ i →
      removeAllocation tbl i = some tbl1 →
      recordPhiUseProjection tbl1 i phi = some tbl2 →
      ReachableTable tbl2

/-- A dominance oracle in which every allocation covers every site (for
concrete instances on straight-line examples). -/
def trivialDom : DomRel :=
  ⟨fun _ _ => true, fun _ _ => true⟩

/-- Concrete table: ordinal 0 is a composing use projection of operand 0
into ordinal 1, whose storage is a root `alloc_stack`. -/
def tblC3 : Table :=
  [⟨false, .other, ⟨some 1, some 0, none, false, true, false, false⟩⟩,
    ⟨false, .other, ⟨none, none, some (.allocStack 9), false, false, false, false⟩⟩]

/-- The table `tblC3` after ordinal 0's address has been materialized and
memoized. -/
def tblC3out : Table :=
  [⟨false, .other,
      ⟨some 1, some 0, some (.proj (.allocStack 9) 0), false, true, false, false⟩⟩,
    ⟨false, .other, ⟨none, none, some (.allocStack 9), false, false, false, false⟩⟩]

/-- Concrete table: ordinal 0 is a phi operand coalesced with the phi at
ordinal 1 (a phi use projection), whose storage is a root `alloc_stack`. -/
def tblC9 : Table :=
  [⟨false, .other, ⟨some 1, none, none, false, true, false, false⟩⟩,
    ⟨false, .other, ⟨none, none, some (.allocStack 3), false, false, false, false⟩⟩]

/-- Concrete table: ordinal 1's storage is a root `alloc_stack`, available
as a use-projection target. -/
def tblC7 : Table :=
  [emptyEntry,
    ⟨false, .other, ⟨none, none, some (.allocStack 4), false, false, false, false⟩⟩]

/-- Concrete configuration with one ordinary owned value (ordinal 0) used
as the operand of the phi at ordinal 1, which the external coalescer
coalesces with that operand. -/
def cfgC8 : DriverConfig :=
  ⟨[⟨false, .other, .owned, false, none, [], .inst 0⟩,
      ⟨true, .phi, .owned, false, none, [], .blockArg 1⟩],
    trivialDom, [(1, [0])]⟩

/-- Two unallocated table rows, the initial state for the concrete
reachable-table derivation. -/
def tblC8init : Table := List.replicate 2 emptyEntry

/-- The concrete table after giving ordinal 0 fresh stack storage. -/
def tblC8a : Table := createStackAllocationStorage tblC8init 0 0

/-- The concrete table after additionally recording a composing use
projection of ordinal 1 into ordinal 0. -/
def tblC8w : Table :=
  [⟨false, .other, ⟨none, none, some (.allocStack 0), false, false, false, false⟩⟩,
    ⟨false, .other, ⟨some 0, some 3, none, false, true, false, false⟩⟩]

end AddressLowering

namespace AddressLowering

/-! Helper lemmas about list lookup and update. -/

theorem get?_set_same {α : Type} (l : List α) (i : Nat) (a : α)
    (h : i < l.length) : (l.set i a).get? i = some a := by
  induction l generalizing i with
  | nil => simp at h
  | cons x xs ih =>
    cases i with
    | zero => rfl
    | succ n =>
      simp only [List.set, List.get?]
      exact ih n (by simpa using h)

theorem get?_set_ne {α : Type} (l : List α) (i : Nat) (a : α) (j : Nat)
    (h : j ≠ i) : (l.set i a).get? j = l.get? j := by
  induction l generalizing i j with
  | nil => rfl
  | cons x xs ih =>
    cases i with
    | zero =>
      cases j with
      | zero => exact absurd rfl h
      | succ m => rfl
    | succ n =>
      cases j with
      | zero => rfl
      | succ m =>
        simp only [List.set, List.get?]
        exact ih n m (fun hc => h (by simp [hc]))

theorem get?_modifyStorage_self (tbl : Table) (i : Nat)
    (f : ValueStorage → ValueStorage) (e : VSEntry)
    (h : tbl.get? i = some e) :
    (modifyStorage tbl i f).get? i = some ⟨e.isFuncArg, e.kind, f e.storage⟩ := by
  have hlen : i < tbl.length := List.get?_eq_some.mp h |>.1
  simp only [modifyStorage, h]
  exact get?_set_same tbl i _ hlen

/-! C10 -/

/-- C10: the module-level pass transforms functions only when the module is
not yet marked as using lowered addresses, sets that mark after processing
every function, and therefore running the whole pass a second time on its
own output changes nothing. -/
theorem c10_run_idempotent (transform : FunctionM → FunctionM) (m : ModuleM) :
    (m.loweredAddresses = true → runModule transform m = m) ∧
    (runModule transform m).loweredAddresses = true ∧
    runModule transform (runModule transform m) = runModule transform m := by
  refine ⟨fun h => by simp [runModule, h], ?_, ?_⟩
  · by_cases h : m.loweredAddresses <;> simp [runModule, h]
  · by_cases h : m.loweredAddresses <;> simp [runModule, h]

/-- Witness for C10 at a concrete module already marked as lowered. -/
theorem c10_run_idempotent_witness :
    runModule id (ModuleM.mk true []) = ModuleM.mk true [] :=
  (c10_run_idempotent id (ModuleM.mk true [])).1 rfl

/-! C4 -/

/-- C4 counterexample: a function containing no opaque values but one
formally indirect parameter that is SIL-direct at the canonical stage is
changed by the pass (`convertDirectToIndirectFunctionArgs` replaces the
argument and inserts a load even for loadable parameter types). -/
theorem c4_counterexample :
    (FunctionM.mk [⟨true, false⟩] 0 0 0 1 0 0).opaqueValueCount = 0 ∧
    runOnFunctionChangeCount (FunctionM.mk [⟨true, false⟩] 0 0 0 1 0 0) ≠ 0 := by
  decide

/-- C4 (amended): a function with no opaque values is left unchanged by
`runOnFunction` provided it also has no unreachable blocks, no formally
indirect but SIL-direct parameters, no indirect results under the lowered
convention, no returns needing tuple canonicalization, and no apply sites
with formally indirect conventions. -/
theorem c4_noop_on_trivial_function (f : FunctionM)
    (h1 : f.opaqueValueCount = 0)
    (h2 : f.unreachableBlockCount = 0)
    (h3 : convertDirectToIndirectFunctionArgsChangeCount f = 0)
    (h4 : f.loweredIndirectResultCount = 0)
    (h5 : canonicalizeReturnValuesChangeCount f = 0)
    (h6 : f.indirectApplyCount = 0) :
    runOnFunctionChangeCount f = 0 := by
  simp [runOnFunctionChangeCount, removeUnreachableBlocksChangeCount,
    insertIndirectReturnArgsChangeCount, rewriteFunctionChangeCount,
    h1, h2, h3, h4, h5, h6]

/-- Witness for C4 at a concrete trivial function. -/
theorem c4_noop_on_trivial_function_witness :
    runOnFunctionChangeCount (FunctionM.mk [] 0 0 0 0 0 0) = 0 :=
  c4_noop_on_trivial_function (FunctionM.mk [] 0 0 0 0 0 0)
    (by decide) (by decide) (by decide) (by decide) (by decide) (by decide)

/-! C1 -/

/-- C1 counterexample: a guaranteed opaque value defined by a load_borrow
has no def-projection candidate and no reused-storage operand, yet
`allocateValue` skips it via `doesNotNeedStackAllocation` instead of
aborting with the fatal ownership violation. -/
theorem c1_counterexample :
    (AllocValue.mk .loadBorrow .guaranteed false false).ownership =
      .guaranteed ∧
    getProjectedDefOperandB .loadBorrow = false ∧
    getReusedStorageOperandB .loadBorrow = false ∧
    allocateValue (AllocValue.mk .loadBorrow .guaranteed false false) ≠
      .fatalGuaranteed := by
  decide

/-- C1 (amended): a guaranteed opaque value whose storage entry is not
pre-rewritten, that has no reused-storage operand, is not defined by a
load_borrow or begin_apply, and has no def-projection candidate makes
`allocateValue` abort compilation with the fatal ownership violation; and
a guaranteed value never receives an independent allocation (neither a use
projection nor fresh stack storage). -/
theorem c1_guaranteed_without_reuse_fatal (v : AllocValue)
    (hg : v.ownership = .guaranteed)
    (hr : v.storageIsRewritten = false)
    (hreuse : getReusedStorageOperandB v.kind = false)
    (hstack : doesNotNeedStackAllocation v.kind = false)
    (hdef : getProjectedDefOperandB v.kind = false) :
    allocateValue v = .fatalGuaranteed ∧
    ∀ w : AllocValue, w.ownership = .guaranteed →
      allocateValue w ≠ .useProjection ∧ allocateValue w ≠ .freshAllocation := by
  constructor
  · simp [allocateValue, hg, hr, hreuse, hstack, hdef]
  · intro w hw
    unfold allocateValue
    by_cases h1 : w.storageIsRewritten <;>
      by_cases h2 : getReusedStorageOperandB w.kind <;>
        by_cases h3 : doesNotNeedStackAllocation w.kind <;>
          by_cases h4 : getProjectedDefOperandB w.kind <;>
            simp [h1, h2, h3, h4, hw]

/-- Witness for C1 at a concrete guaranteed value with no reusable
source. -/
theorem c1_guaranteed_without_reuse_fatal_witness :
    allocateValue (AllocValue.mk .other .guaranteed false false) =
      .fatalGuaranteed :=
  (c1_guaranteed_without_reuse_fatal
    (AllocValue.mk .other .guaranteed false false)
    (by decide) (by decide) (by decide) (by decide) (by decide)).1

/-! C2 and C5: the merge-edge rewriter's emitted moves. -/

theorem moveCount_append (a b : List PInst) :
    moveCount (a ++ b) = moveCount a + moveCount b := by
  simp [moveCount, List.filter_append]

theorem allocCount_append (a b : List PInst) :
    allocCount (a ++ b) = allocCount a + allocCount b := by
  simp [allocCount, List.filter_append]

theorem moveCount_insertAt (n : Nat) (new l : List PInst) :
    moveCount (insertAt n new l) = moveCount new + moveCount l := by
  have h2 : moveCount (l.take n) + moveCount (l.drop n) = moveCount l := by
    rw [← moveCount_append, List.take_append_drop]
  rw [insertAt, moveCount_append, moveCount_append]
  omega

theorem allocCount_insertAt (n : Nat) (new l : List PInst) :
    allocCount (insertAt n new l) = allocCount new + allocCount l := by
  have h2 : allocCount (l.take n) + allocCount (l.drop n) = allocCount l := by
    rw [← allocCount_append, List.take_append_drop]
  rw [insertAt, allocCount_append, allocCount_append]
  omega

/-- C2 (amended): for a phi operand, the merge-edge rewriter emits no move
when the operand was coalesced with this phi's storage; otherwise exactly
one move and no temporary when no anti-dependence cycle is detected; and
exactly two moves through exactly one fresh temporary allocation when a
cycle is detected (the operand is moved into the temporary at the
serialization point and from the temporary into the phi storage before the
branch, which completes a three-move edge sequence together with the
conflicting move emitted earlier for another phi of the same edge). -/
theorem c2_edge_move_emission (pre : List PInst) (s : ValueStorage)
    (phiOrd operBase phiBase temp : Nat) :
    ((s.isPhiProjection && s.projectedStorageID == some phiOrd) = true →
      materializeOperand pre s phiOrd operBase phiBase temp = pre) ∧
    ((s.isPhiProjection && s.projectedStorageID == some phiOrd) = false →
      (findPhiMovePosition pre phiBase operBase).foundAntiDependenceCycle =
        false →
      moveCount (materializeOperand pre s phiOrd operBase phiBase temp) =
          moveCount pre + 1 ∧
        allocCount (materializeOperand pre s phiOrd operBase phiBase temp) =
          allocCount pre) ∧
    ((s.isPhiProjection && s.projectedStorageID == some phiOrd) = false →
      (findPhiMovePosition pre phiBase operBase).foundAntiDependenceCycle =
        true →
      moveCount (materializeOperand pre s phiOrd operBase phiBase temp) =
          moveCount pre + 2 ∧
        allocCount (materializeOperand pre s phiOrd operBase phiBase temp) =
          allocCount pre + 1) := by
  refine ⟨fun h => by simp [materializeOperand, h], fun h hc => ?_, fun h hc => ?_⟩
  · rw [materializeOperand]
    simp only [h, hc, Bool.false_eq_true, if_false, Bool.not_false, if_true]
    constructor
    · rw [moveCount_insertAt]
      simp [moveCount]
      omega
    · rw [allocCount_insertAt]
      simp [allocCount]
  · rw [materializeOperand]
    simp only [h, hc, Bool.false_eq_true, if_false, Bool.not_true, if_false]
    constructor
    · rw [moveCount_append, moveCount_insertAt]
      simp [moveCount]
      omega
    · rw [allocCount_append, allocCount_insertAt]
      simp [allocCount]
      omega

/-- Witness for C2 on the classic swap example: after the move
`addr1 → addr0` was emitted for the first phi, materializing the second
operand (`addr0 → addr1`) detects the cycle and emits two moves. -/
theorem c2_edge_move_emission_witness :
    moveCount
        (materializeOperand [.copyAddr 1 0 true] emptyStorage 7 0 1 5) =
      moveCount [PInst.copyAddr 1 0 true] + 2 :=
  ((c2_edge_move_emission [.copyAddr 1 0 true] emptyStorage 7 0 1 5).2.2
    (by decide) (by decide)).1

/-- C2 counterexample: in the detected-cycle case the rewriter emits
exactly two moves through the temporary for the conflicting operand, not
three. -/
theorem c2_counterexample :
    (findPhiMovePosition [.copyAddr 1 0 true] 1 0).foundAntiDependenceCycle =
      true ∧
    materializeOperand [.copyAddr 1 0 true] emptyStorage 7 0 1 5 =
      [.allocStack 5, .copyAddr 0 5 true, .copyAddr 1 0 true,
        .copyAddr 5 1 true, .deallocStack 5] ∧
    moveCount (materializeOperand [.copyAddr 1 0 true] emptyStorage 7 0 1 5) =
      moveCount [PInst.copyAddr 1 0 true] + 2 ∧
    ¬ moveCount (materializeOperand [.copyAddr 1 0 true] emptyStorage 7 0 1 5) =
      moveCount [PInst.copyAddr 1 0 true] + 3 := by
  decide

/-- C5 (amended): when the rewriter resolves an anti-dependence cycle with
a temporary, the temporary's `dealloc_stack` is emitted as the last
instruction before the predecessor's branch, immediately after the move
from the temporary into the phi storage. -/
theorem c5_temp_dealloc_before_branch (pre : List PInst) (s : ValueStorage)
    (phiOrd operBase phiBase temp : Nat)
    (hco : (s.isPhiProjection && s.projectedStorageID == some phiOrd) = false)
    (hcy : (findPhiMovePosition pre phiBase operBase).foundAntiDependenceCycle =
      true) :
    ∃ l, materializeOperand pre s phiOrd operBase phiBase temp =
      l ++ [.copyAddr temp phiBase true, .deallocStack temp] := by
  rw [materializeOperand]
  simp only [hco, hcy, Bool.false_eq_true, if_false, Bool.not_true]
  exact ⟨_, rfl⟩

/-- Witness for C5 on the concrete swap example. -/
theorem c5_temp_dealloc_before_branch_witness :
    ∃ l, materializeOperand [.copyAddr 1 0 true] emptyStorage 7 0 1 5 =
      l ++ [.copyAddr 5 1 true, .deallocStack 5] :=
  c5_temp_dealloc_before_branch [.copyAddr 1 0 true] emptyStorage 7 0 1 5
    (by decide) (by decide)

/-! C3 and C9: the address materializer. -/

theorem get?_isSome_of_lt {α : Type} (l : List α) (i : Nat)
    (h : i < l.length) : ∃ x, l.get? i = some x :=
  ⟨l.get ⟨i, h⟩, List.get?_eq_get h⟩

theorem length_modifyStorage (tbl : Table) (i : Nat)
    (f : ValueStorage → ValueStorage) :
    (modifyStorage tbl i f).length = tbl.length := by
  unfold modifyStorage
  split
  · rfl
  · simp

theorem length_recordAddressInto (intoPhi : Bool) (tbl : Table) (i : Nat)
    (a : Address) :
    (recordAddressInto intoPhi tbl i a).length = tbl.length := by
  unfold recordAddressInto
  split
  · rfl
  · exact length_modifyStorage tbl i _

theorem recordAddressInto_false_get (tbl : Table) (i : Nat) (a : Address)
    (e : VSEntry) (h : tbl.get? i = some e) :
    (recordAddressInto false tbl i a).get? i =
      some ⟨e.isFuncArg, e.kind, e.storage.withAddress a⟩ := by
  simp only [recordAddressInto, Bool.false_eq_true, if_false]
  exact get?_modifyStorage_self tbl i _ e h

theorem recursivelyMaterialize_length :
    ∀ (fuel : Nat) (intoPhi : Bool) (tbl tbl1 : Table) (i : Nat)
      (a : Address) (em : List Address),
    recursivelyMaterializeStorage fuel tbl i intoPhi = some (a, tbl1, em) →
    tbl1.length = tbl.length := by
  intro fuel
  induction fuel with
  | zero =>
    intro intoPhi tbl tbl1 i a em h
    simp [recursivelyMaterializeStorage] at h
  | succ n ih =>
    intro intoPhi tbl tbl1 i a em h
    rw [recursivelyMaterializeStorage] at h
    split at h
    · exact absurd h (by simp)
    next e hget =>
      split at h
      next a0 hcache =>
        obtain ⟨rfl, rfl, rfl⟩ := by simpa using h
        rfl
      next hcache =>
        split at h
        next hcomp =>
          split at h
          next u opNum hu hop =>
            split at h
            · exact absurd h (by simp)
            next ue hue =>
              split at h
              next hfa =>
                split at h
                · exact absurd h (by simp)
                next ua hua =>
                  split at h
                  next hrw =>
                    obtain ⟨rfl, rfl, rfl⟩ := by simpa using h
                    exact length_recordAddressInto intoPhi tbl i ua
                  next hrw => exact absurd h (by simp)
              next hfa =>
                split at h
                · exact absurd h (by simp)
                next ua tbl2 em2 hrec =>
                  obtain ⟨rfl, rfl, rfl⟩ := by simpa using h
                  rw [length_recordAddressInto intoPhi tbl2 i _]
                  exact ih intoPhi tbl tbl2 u ua em2 hrec
          next => exact absurd h (by simp)
        next hcomp =>
          split at h
          next hphi =>
            split at h
            · exact absurd h (by simp)
            next p hp =>
              split at h
              · exact absurd h (by simp)
              next pa tbl2 em2 hrec =>
                obtain ⟨rfl, rfl, rfl⟩ := by simpa using h
                rw [length_recordAddressInto intoPhi tbl2 i _]
                exact ih true tbl tbl2 p pa em2 hrec
          next hphi =>
            split at h
            next hdp => exact absurd h (by simp)
            next hdp =>
              split at h
              · exact absurd h (by simp)
              next a0 haddr =>
                obtain ⟨rfl, rfl, rfl⟩ := by simpa using h
                rfl

theorem recursivelyMaterialize_sets_address (fuel : Nat) (tbl tbl1 : Table)
    (i : Nat) (a : Address) (em : List Address)
    (h : recursivelyMaterializeStorage fuel tbl i false = some (a, tbl1, em)) :
    ∃ e1, tbl1.get? i = some e1 ∧ e1.storage.storageAddress = some a := by
  match fuel with
  | 0 => simp [recursivelyMaterializeStorage] at h
  | n + 1 =>
    rw [recursivelyMaterializeStorage] at h
    split at h
    · exact absurd h (by simp)
    next e hget =>
      have hlen : i < tbl.length := (List.get?_eq_some.mp hget).1
      split at h
      next a0 hcache =>
        obtain ⟨rfl, rfl, rfl⟩ := by simpa using h
        refine ⟨e, hget, ?_⟩
        simpa using hcache
      next hcache =>
        split at h
        next hcomp =>
          split at h
          next u opNum hu hop =>
            split at h
            · exact absurd h (by simp)
            next ue hue =>
              split at h
              next hfa =>
                split at h
                · exact absurd h (by simp)
                next ua hua =>
                  split at h
                  next hrw =>
                    obtain ⟨rfl, rfl, rfl⟩ := by simpa using h
                    exact ⟨_, recordAddressInto_false_get tbl i ua e hget, rfl⟩
                  next hrw => exact absurd h (by simp)
              next hfa =>
                split at h
                · exact absurd h (by simp)
                next ua tbl2 em2 hrec =>
                  obtain ⟨rfl, rfl, rfl⟩ := by simpa using h
                  have hlen2 : i < tbl2.length := by
                    rw [recursivelyMaterialize_length n false tbl tbl2 u ua
                      em2 hrec]
                    exact hlen
                  obtain ⟨e2, he2⟩ := get?_isSome_of_lt tbl2 i hlen2
                  exact ⟨_, recordAddressInto_false_get tbl2 i _ e2 he2, rfl⟩
          next => exact absurd h (by simp)
        next hcomp =>
          split at h
          next hphi =>
            split at h
            · exact absurd h (by simp)
            next p hp =>
              split at h
              · exact absurd h (by simp)
              next pa tbl2 em2 hrec =>
                obtain ⟨rfl, rfl, rfl⟩ := by simpa using h
                have hlen2 : i < tbl2.length := by
                  rw [recursivelyMaterialize_length n true tbl tbl2 p pa
                    em2 hrec]
                  exact hlen
                obtain ⟨e2, he2⟩ := get?_isSome_of_lt tbl2 i hlen2
                exact ⟨_, recordAddressInto_false_get tbl2 i _ e2 he2, rfl⟩
          next hphi =>
            split at h
            next hdp => exact absurd h (by simp)
            next hdp =>
              split at h
              · exact absurd h (by simp)
              next a0 haddr =>
                obtain ⟨rfl, rfl, rfl⟩ := by simpa using h
                exact ⟨e, hget, haddr⟩

theorem materialize_sets_address (fuel : Nat) (tbl tbl1 : Table) (i : Nat)
    (a : Address) (em : List Address)
    (h : materializeAddress fuel tbl i = some (a, tbl1, em)) :
    ∃ e1, tbl1.get? i = some e1 ∧ e1.storage.storageAddress = some a := by
  rw [materializeAddress] at h
  split at h
  · exact absurd h (by simp)
  next e hget =>
    split at h
    next a0 hcache =>
      obtain ⟨rfl, rfl, rfl⟩ := by simpa using h
      exact ⟨e, hget, hcache⟩
    next hcache =>
      split at h
      next huse => exact recursivelyMaterialize_sets_address fuel tbl tbl1 i a em h
      next huse =>
        split at h
        next hdef =>
          split at h
          · exact absurd h (by simp)
          next a0 em0 hmd =>
            obtain ⟨rfl, rfl, rfl⟩ := by simpa using h
            refine ⟨_, get?_modifyStorage_self tbl i _ e hget, rfl⟩
        next hdef => exact absurd h (by simp)

/-- C3: address materialization is idempotent.  If `materializeAddress`
resolves a value's storage to an address, the resolved address is memoized
in the storage entry, and a second call returns the same address with no
additional address-computation emissions. -/
theorem c3_materialization_idempotent (fuel fuel2 : Nat) (tbl tbl1 : Table)
    (i : Nat) (a : Address) (em : List Address)
    (h : materializeAddress fuel tbl i = some (a, tbl1, em)) :
    materializeAddress fuel2 tbl1 i = some (a, tbl1, []) ∧
    ∃ e1, tbl1.get? i = some e1 ∧ e1.storage.storageAddress = some a := by
  obtain ⟨e1, he, ha⟩ := materialize_sets_address fuel tbl tbl1 i a em h
  refine ⟨?_, e1, he, ha⟩
  rw [materializeAddress, he]
  simp [ha]

/-- Witness for C3: materializing ordinal 0's use-projection storage in
`tblC3` memoizes the projected address, and a second call returns the same
address emitting nothing. -/
theorem c3_materialization_idempotent_witness :
    materializeAddress 3 tblC3 0 =
      some (.proj (.allocStack 9) 0, tblC3out, [.proj (.allocStack 9) 0]) ∧
    materializeAddress 5 tblC3out 0 =
      some (.proj (.allocStack 9) 0, tblC3out, []) :=
  ⟨by decide,
    (c3_materialization_idempotent 3 5 tblC3 tblC3out 0
      (.proj (.allocStack 9) 0) [.proj (.allocStack 9) 0] (by decide)).1⟩

/-- C9: materializing a phi's storage for a predecessor edge
(`intoPhiOperand`, used only by the merge-edge rewriter) computes the
address without writing anything back: the storage table (in particular
the storage entry's cached address field) is unchanged. -/
theorem c9_into_phi_operand_pure :
    ∀ (fuel : Nat) (tbl tbl1 : Table) (i : Nat) (a : Address)
      (em : List Address),
    recursivelyMaterializeStorage fuel tbl i true = some (a, tbl1, em) →
    tbl1 = tbl := by
  intro fuel
  induction fuel with
  | zero =>
    intro tbl tbl1 i a em h
    simp [recursivelyMaterializeStorage] at h
  | succ n ih =>
    intro tbl tbl1 i a em h
    rw [recursivelyMaterializeStorage] at h
    split at h
    · exact absurd h (by simp)
    next e hget =>
      split at h
      next a0 hcache => simp at hcache
      next hcache =>
        split at h
        next hcomp =>
          split at h
          next u opNum hu hop =>
            split at h
            · exact absurd h (by simp)
            next ue hue =>
              split at h
              next hfa =>
                split at h
                · exact absurd h (by simp)
                next ua hua =>
                  split at h
                  next hrw =>
                    obtain ⟨rfl, rfl, rfl⟩ := by simpa using h
                    rfl
                  next hrw => exact absurd h (by simp)
              next hfa =>
                split at h
                · exact absurd h (by simp)
                next ua tbl2 em2 hrec =>
                  obtain ⟨rfl, rfl, rfl⟩ := by simpa using h
                  simpa [recordAddressInto] using ih tbl tbl2 u ua em2 hrec
          next => exact absurd h (by simp)
        next hcomp =>
          split at h
          next hphi =>
            split at h
            · exact absurd h (by simp)
            next p hp =>
              split at h
              · exact absurd h (by simp)
              next pa tbl2 em2 hrec =>
                obtain ⟨rfl, rfl, rfl⟩ := by simpa using h
                simpa [recordAddressInto] using ih tbl tbl2 p pa em2 hrec
          next hphi =>
            split at h
            next hdp => exact absurd h (by simp)
            next hdp =>
              split at h
              · exact absurd h (by simp)
              next a0 haddr =>
                obtain ⟨rfl, rfl, rfl⟩ := by simpa using h
                rfl

/-- Witness for C9: resolving the phi-projection storage of ordinal 0 in
`tblC9` for a predecessor edge returns the phi's root address and leaves
the table unchanged. -/
theorem c9_into_phi_operand_pure_witness :
    recursivelyMaterializeStorage 3 tblC9 0 true =
      some (.allocStack 3, tblC9, []) ∧ tblC9 = tblC9 :=
  ⟨by decide,
    c9_into_phi_operand_pure 3 tblC9 tblC9 0 (.allocStack 3) [] (by decide)⟩

/-! C6: the two-phase allocation order. -/

theorem mem_allocPhaseOrder {b : Bool} {isPhiTbl : List Bool} {i : Nat}
    (h : i ∈ allocPhaseOrder b isPhiTbl) : isPhiTbl.get? i = some b := by
  unfold allocPhaseOrder at h
  obtain ⟨⟨j, v⟩, hmem, rfl⟩ := List.mem_map.mp h
  have h2 := List.mem_filter.mp hmem
  have h3 : (j, v) ∈ isPhiTbl.enum := List.mem_reverse.mp h2.1
  have h4 : isPhiTbl[j]? = some v := List.mk_mem_enum_iff_getElem?.mp h3
  have h5 : v = b := by simpa using h2.2
  rw [List.get?_eq_getElem?, h4, h5]

theorem pairwise_allocPhaseOrder (b : Bool) (isPhiTbl : List Bool) :
    List.Pairwise (· > ·) (allocPhaseOrder b isPhiTbl) := by
  have hsub : List.Sublist (allocPhaseOrder b isPhiTbl)
      ((isPhiTbl.enum.reverse).map Prod.fst) :=
    (List.filter_sublist _).map Prod.fst
  have hmap : (isPhiTbl.enum.reverse).map Prod.fst =
      (List.range isPhiTbl.length).reverse := by
    rw [List.map_reverse, List.enum_map_fst]
  have hpw : List.Pairwise (· > ·) ((List.range isPhiTbl.length).reverse) := by
    rw [List.pairwise_reverse]
    exact List.pairwise_lt_range isPhiTbl.length
  rw [hmap] at hsub
  exact hpw.sublist hsub

/-- C6: storage allocation is two-phased.  The allocator's visit order is
the non-phi entries followed by the phi entries, so every non-phi value's
storage decision happens before any phi value's storage decision, and both
phases visit the storage table in reverse collection order (ordinals are
strictly decreasing within each phase). -/
theorem c6_two_phase_allocation (isPhiTbl : List Bool) :
    (∀ i ∈ allocPhaseOrder false isPhiTbl, isPhiTbl.get? i = some false) ∧
    (∀ i ∈ allocPhaseOrder true isPhiTbl, isPhiTbl.get? i = some true) ∧
    (∀ p q ip iq,
      (allocateOpaqueStorageOrder isPhiTbl).get? p = some ip →
      (allocateOpaqueStorageOrder isPhiTbl).get? q = some iq →
      isPhiTbl.get? ip = some false → isPhiTbl.get? iq = some true →
      p < q) ∧
    List.Pairwise (· > ·) (allocPhaseOrder false isPhiTbl) ∧
    List.Pairwise (· > ·) (allocPhaseOrder true isPhiTbl) := by
  refine ⟨fun i h => mem_allocPhaseOrder h, fun i h => mem_allocPhaseOrder h,
    ?_, pairwise_allocPhaseOrder false isPhiTbl,
    pairwise_allocPhaseOrder true isPhiTbl⟩
  intro p q ip iq hp hq hip hiq
  by_cases hp1 : p < (allocPhaseOrder false isPhiTbl).length
  · by_cases hq1 : q < (allocPhaseOrder false isPhiTbl).length
    · exfalso
      rw [allocateOpaqueStorageOrder, List.get?_append hq1] at hq
      have := mem_allocPhaseOrder (List.get?_mem hq)
      rw [this] at hiq
      exact Bool.false_ne_true (by simpa using hiq)
    · omega
  · exfalso
    rw [allocateOpaqueStorageOrder,
      List.get?_append_right (Nat.le_of_not_lt hp1)] at hp
    have := mem_allocPhaseOrder (List.get?_mem hp)
    rw [this] at hip
    exact Bool.false_ne_true (by simpa using hip)

/-- Witness for C6 at a concrete two-entry table (a non-phi value at
ordinal 0 and a phi at ordinal 1): the non-phi decision at trace position
0 precedes the phi decision at trace position 1. -/
theorem c6_two_phase_allocation_witness : (0 : Nat) < 1 :=
  (c6_two_phase_allocation [false, true]).2.2.1 0 1 0 1
    (by decide) (by decide) (by decide) (by decide)

/-! C7: use projections are covered by their root storage. -/

/-- C7: whenever `findProjectionIntoUseImpl` accepts a use projection, the
projection target's root storage covers the value: the root's address is
either an `alloc_stack` that properly dominates every incoming value's
definition site (the value itself, or for a phi every coalesced incoming
value), or a function argument. -/
theorem c7_use_projection_dominates (tbl : Table) (dom : DomRel)
    (uses : List UseCandidate) (incomingValues : List DefSite)
    (intoPhi : Bool) (use : UseCandidate) (r : Nat)
    (h : findProjectionIntoUseImpl tbl dom uses incomingValues intoPhi =
      some (use, r)) :
    ∃ re, tbl.get? r = some re ∧
      ((∃ k, re.storage.storageAddress = some (.funcArg k)) ∨
        ∃ a, re.storage.storageAddress = some (.allocStack a) ∧
          ∀ v ∈ incomingValues, dominatesSite dom a v = true) := by
  induction uses with
  | nil => simp [findProjectionIntoUseImpl] at h
  | cons u rest ih =>
    rw [findProjectionIntoUseImpl] at h
    split at h
    · exact ih h
    next uv huv =>
      split at h
      · exact ih h
      · split at h
        · exact ih h
        next r0 hbase =>
          split at h
          · exact ih h
          next re hre =>
            split at h
            next a haddr =>
              split at h
              next hchk =>
                obtain ⟨rfl, rfl⟩ := by
                  simpa using h
                refine ⟨re, hre, Or.inr ⟨a, haddr, ?_⟩⟩
                intro v hv
                exact List.all_eq_true.mp hchk v hv
              next hchk => exact ih h
            next k haddr =>
              obtain ⟨rfl, rfl⟩ := by simpa using h
              exact ⟨re, hre, Or.inl ⟨k, haddr⟩⟩
            next => exact ih h

/-- Witness for C7: ordinal 0's single use composes it into the value at
ordinal 1, whose root storage is an `alloc_stack` dominating ordinal 0's
definition. -/
theorem c7_use_projection_dominates_witness :
    ∃ re, tblC7.get? 1 = some re ∧
      ((∃ k, re.storage.storageAddress = some (.funcArg k)) ∨
        ∃ a, re.storage.storageAddress = some (.allocStack a) ∧
          ∀ v ∈ [DefSite.inst 0], dominatesSite trivialDom a v = true) :=
  c7_use_projection_dominates tblC7 trivialDom [⟨some 1, 0⟩] [.inst 0] false
    ⟨some 1, 0⟩ 1 (by decide)

/-! C8: invariants of the storage table under the allocator's mutations. -/

theorem transGen_cases_head {α : Type} {r : α → α → Prop} {a c : α}
    (h : Relation.TransGen r a c) :
    r a c ∨ ∃ b, r a b ∧ Relation.TransGen r b c := by
  induction h with
  | single h => exact Or.inl h
  | tail hab hbc ih =>
    rcases ih with h | ⟨b, hb, hrest⟩
    · exact Or.inr ⟨_, h, Relation.TransGen.single hbc⟩
    · exact Or.inr ⟨b, hb, hrest.tail hbc⟩

theorem unallocated_parts {s : ValueStorage} (h : s.isAllocated = false) :
    s.storageAddress = none ∧ s.isUseProjection = false ∧
      s.isDefProjection = false := by
  unfold ValueStorage.isAllocated at h
  rcases hc : s.storageAddress with _ | a
  · rw [hc] at h
    simp at h
    exact ⟨rfl, h.1, h.2⟩
  · rw [hc] at h
    simp at h

theorem nonproj_of_unallocated {s : ValueStorage}
    (h : s.isAllocated = false) : s.isProjection = false := by
  obtain ⟨_, h1, h2⟩ := unallocated_parts h
  simp [ValueStorage.isProjection, h1, h2]

theorem not_reaches_of_nonproj {tbl : Table} {u : Nat} {e : VSEntry}
    (hget : tbl.get? u = some e) (hnp : e.storage.isProjection = false) :
    ∀ j, ¬ ChainReaches tbl u j := by
  intro j hreach
  have hstep : ∃ b, chainStep tbl u b := by
    rcases transGen_cases_head hreach with hs | ⟨b, hs, _⟩
    · exact ⟨j, hs⟩
    · exact ⟨b, hs⟩
  obtain ⟨b, e2, hg, hp, _⟩ := hstep
  rw [hget] at hg
  obtain rfl := Option.some.inj hg
  rw [hnp] at hp
  exact Bool.false_ne_true hp

theorem chainStep_det {tbl : Table} {u b b' : Nat} (h1 : chainStep tbl u b)
    (h2 : chainStep tbl u b') : b = b' := by
  obtain ⟨e1, hg1, _, hid1⟩ := h1
  obtain ⟨e2, hg2, _, hid2⟩ := h2
  rw [hg1] at hg2
  obtain rfl := Option.some.inj hg2
  rw [hid1] at hid2
  exact Option.some.inj hid2

theorem reaches_of_update {tbl tblN : Table} {i t : Nat}
    (hagree : ∀ a, a ≠ i → tblN.get? a = tbl.get? a)
    (hedge : ∀ b, chainStep tblN i b → b = t) :
    ∀ a c, ChainReaches tblN a c →
      ChainReaches tbl a c ∨
        ((a = i ∨ ChainReaches tbl a i) ∧ (c = t ∨ ChainReaches tbl t c)) := by
  intro a c h
  induction h with
  | single hs =>
    rename_i c0
    by_cases ha : a = i
    · subst ha
      exact Or.inr ⟨Or.inl rfl, Or.inl (hedge c0 hs)⟩
    · obtain ⟨e, hg, hp, hid⟩ := hs
      rw [hagree a ha] at hg
      exact Or.inl (Relation.TransGen.single ⟨e, hg, hp, hid⟩)
  | tail hab hbc ih =>
    rename_i b0 c0
    by_cases hb : b0 = i
    · subst hb
      have hct : c0 = t := hedge c0 hbc
      rcases ih with hreach | ⟨hfst, _⟩
      · exact Or.inr ⟨Or.inr hreach, Or.inl hct⟩
      · exact Or.inr ⟨hfst, Or.inl hct⟩
    · obtain ⟨e, hg, hp, hid⟩ := hbc
      rw [hagree b0 hb] at hg
      have hstep : chainStep tbl b0 c0 := ⟨e, hg, hp, hid⟩
      rcases ih with hreach | ⟨hfst, hsnd⟩
      · exact Or.inl (hreach.tail hstep)
      · refine Or.inr ⟨hfst, ?_⟩
        rcases hsnd with rfl | hsnd
        · exact Or.inr (Relation.TransGen.single hstep)
        · exact Or.inr (hsnd.tail hstep)

theorem acyclic_update {tbl tblN : Table} {i t : Nat}
    (hagree : ∀ a, a ≠ i → tblN.get? a = tbl.get? a)
    (hedge : ∀ b, chainStep tblN i b → b = t)
    (hacy : Acyclic tbl) (hnr : ¬ ChainReaches tbl t i) (hti : t ≠ i) :
    Acyclic tblN := by
  intro x hx
  rcases reaches_of_update hagree hedge x x hx with h | ⟨h1, h2⟩
  · exact hacy x h
  · rcases h1 with rfl | h1
    · rcases h2 with h2 | h2
      · exact hti h2.symm
      · exact hnr h2
    · rcases h2 with rfl | h2
      · exact hnr h1
      · exact hnr (h2.trans h1)

theorem acyclic_update_nonproj {tbl tblN : Table} {i : Nat}
    (hagree : ∀ a, a ≠ i → tblN.get? a = tbl.get? a)
    (hnoedge : ∀ b, ¬ chainStep tblN i b)
    (hacy : Acyclic tbl) : Acyclic tblN := by
  intro x hx
  apply hacy x
  refine Relation.TransGen.mono ?_ hx
  intro a b hab
  by_cases ha : a = i
  · exact absurd (ha ▸ hab) (hnoedge b)
  · obtain ⟨e, hg, hp, hid⟩ := hab
    rw [hagree a ha] at hg
    exact ⟨e, hg, hp, hid⟩

theorem getBaseStorage_start (tbl : Table) (ae : Bool) (fuel v r : Nat)
    (h : getBaseStorage tbl ae fuel v = some r) :
    v = r ∨ ∃ e, tbl.get? v = some e ∧ e.storage.isProjection = true := by
  match fuel with
  | 0 => simp [getBaseStorage] at h
  | n + 1 =>
    rw [getBaseStorage] at h
    split at h
    · exact absurd h (by simp)
    next e hget =>
      split at h
      · exact absurd h (by simp)
      next henum =>
        split at h
        next hproj => exact Or.inr ⟨e, hget, hproj⟩
        next hproj => exact Or.inl (by simpa using h)

theorem getBaseStorage_reaches (tbl : Table) (ae : Bool) :
    ∀ (fuel u r : Nat), getBaseStorage tbl ae fuel u = some r →
    ∀ j, ChainReaches tbl u j →
      j = r ∨ ∃ e, tbl.get? j = some e ∧ e.storage.isProjection = true := by
  intro fuel
  induction fuel with
  | zero =>
    intro u r h
    simp [getBaseStorage] at h
  | succ n ih =>
    intro u r h j hreach
    rw [getBaseStorage] at h
    split at h
    · exact absurd h (by simp)
    next e hget =>
      split at h
      · exact absurd h (by simp)
      next henum =>
        split at h
        next hproj =>
          split at h
          · exact absurd h (by simp)
          next v hv =>
            have hfirst : ∀ b, chainStep tbl u b → b = v := by
              intro b hs
              obtain ⟨e2, hg2, _, hid2⟩ := hs
              rw [hget] at hg2
              obtain rfl := Option.some.inj hg2
              rw [hv] at hid2
              exact (Option.some.inj hid2).symm
            rcases transGen_cases_head hreach with hs | ⟨b, hs, hrest⟩
            · obtain rfl := hfirst j hs
              exact getBaseStorage_start tbl ae n j r h
            · obtain rfl := hfirst b hs
              exact ih b r h j hrest
        next hproj =>
          exfalso
          have hs : ∃ b, chainStep tbl u b := by
            rcases transGen_cases_head hreach with hs | ⟨b, hs, _⟩
            · exact ⟨j, hs⟩
            · exact ⟨b, hs⟩
          obtain ⟨b, e2, hg2, hp2, _⟩ := hs
          rw [hget] at hg2
          obtain rfl := Option.some.inj hg2
          exact hproj hp2

theorem recordComposingUseProjection_eq {tbl tbl1 : Table}
    {i user opNum : Nat} {en : Bool}
    (h : recordComposingUseProjection tbl i user opNum en = some tbl1) :
    ∃ e, tbl.get? i = some e ∧ e.storage.isAllocated = false ∧
      tbl1 = tbl.set i ⟨e.isFuncArg, e.kind,
        ⟨some user, some opNum, e.storage.storageAddress,
          e.storage.isDefProjection, true,
          e.storage.initializesEnum || en, e.storage.isRewritten⟩⟩ := by
  unfold recordComposingUseProjection at h
  split at h
  · exact absurd h (by simp)
  next e hget =>
    split at h
    · exact absurd h (by simp)
    next halloc =>
      split at h
      · exact absurd h (by simp)
      next hop =>
        exact ⟨e, hget, by simpa using halloc, (Option.some.inj h).symm⟩

theorem recordPhiUseProjection_eq {tbl tbl1 : Table} {i phi : Nat}
    (h : recordPhiUseProjection tbl i phi = some tbl1) :
    ∃ e, tbl.get? i = some e ∧ e.storage.isAllocated = false ∧
      tbl1 = tbl.set i ⟨e.isFuncArg, e.kind,
        ⟨some phi, none, e.storage.storageAddress,
          e.storage.isDefProjection, true, e.storage.initializesEnum,
          e.storage.isRewritten⟩⟩ := by
  unfold recordPhiUseProjection at h
  split at h
  · exact absurd h (by simp)
  next e hget =>
    split at h
    · exact absurd h (by simp)
    next halloc =>
      split at h
      · exact absurd h (by simp)
      next hop =>
        exact ⟨e, hget, by simpa using halloc, (Option.some.inj h).symm⟩

theorem removeAllocation_eq {tbl tbl1 : Table} {i : Nat}
    (h : removeAllocation tbl i = some tbl1) :
    ∃ e a, tbl.get? i = some e ∧
      e.storage.storageAddress = some (.allocStack a) ∧
      tbl1 = tbl.set i ⟨e.isFuncArg, e.kind, e.storage.withoutAddress⟩ := by
  unfold removeAllocation at h
  split at h
  · exact absurd h (by simp)
  next e hget =>
    split at h
    next a haddr =>
      exact ⟨e, a, hget, haddr, (Option.some.inj h).symm⟩
    next => exact absurd h (by simp)

theorem c8_invariants_aux (tbl : Table) (h : ReachableTable tbl) :
    ExclusiveKinds tbl ∧ Acyclic tbl ∧ ProjectionsUnmaterialized tbl := by
  induction h with
  | init n =>
    have hall : ∀ j e, (List.replicate n emptyEntry).get? j = some e →
        e = emptyEntry := by
      intro j e hj
      exact (List.eq_of_mem_replicate (List.get?_mem hj))
    refine ⟨?_, ?_, ?_⟩
    · intro j e hj
      rw [hall j e hj]
      simp [emptyEntry, emptyStorage]
    · intro x hx
      have hs : ∃ b, chainStep (List.replicate n emptyEntry) x b := by
        rcases transGen_cases_head hx with hs | ⟨b, hs, _⟩
        · exact ⟨x, hs⟩
        · exact ⟨b, hs⟩
      obtain ⟨b, e, hg, hp, _⟩ := hs
      rw [hall x e hg] at hp
      simp [emptyEntry, emptyStorage, ValueStorage.isProjection] at hp
    · intro j e hj _
      rw [hall j e hj]
      rfl
  | stackAlloc hre hget halloc ih =>
    rename_i tbl0 i allocId e
    obtain ⟨ihE, ihA, ihP⟩ := ih
    have hlen : i < tbl0.length := (List.get?_eq_some.mp hget).1
    have hgetE : tbl0[i]? = some e := by
      rw [← List.get?_eq_getElem?]
      exact hget
    have heq : createStackAllocationStorage tbl0 i allocId =
        tbl0.set i ⟨e.isFuncArg, e.kind,
          e.storage.withAddress (.allocStack allocId)⟩ := by
      simp [createStackAllocationStorage, modifyStorage, hget, hgetE]
    obtain ⟨hA1, hA2, hA3⟩ := unallocated_parts halloc
    have hagree : ∀ a, a ≠ i →
        (createStackAllocationStorage tbl0 i allocId).get? a =
          tbl0.get? a := by
      intro a ha
      rw [heq]
      exact get?_set_ne tbl0 i _ a ha
    have hself : (createStackAllocationStorage tbl0 i allocId).get? i =
        some ⟨e.isFuncArg, e.kind,
          e.storage.withAddress (.allocStack allocId)⟩ := by
      rw [heq]
      exact get?_set_same tbl0 i _ hlen
    refine ⟨?_, ?_, ?_⟩
    · intro j ej hj
      by_cases hji : j = i
      · subst hji
        rw [hself] at hj
        obtain rfl := Option.some.inj hj
        simp [ValueStorage.withAddress, hA2, hA3]
      · rw [hagree j hji] at hj
        exact ihE j ej hj
    · refine acyclic_update_nonproj hagree ?_ ihA
      intro b hs
      obtain ⟨e2, hg, hp, _⟩ := hs
      rw [hself] at hg
      obtain rfl := Option.some.inj hg
      simp [ValueStorage.withAddress, ValueStorage.isProjection, hA2, hA3]
        at hp
    · intro j ej hj hp
      by_cases hji : j = i
      · subst hji
        rw [hself] at hj
        obtain rfl := Option.some.inj hj
        simp [ValueStorage.withAddress, ValueStorage.isProjection, hA2, hA3]
          at hp
      · rw [hagree j hji] at hj
        exact ihP j ej hj hp
  | defProj hre hget halloc hgetsrc hallocsrc hne ih =>
    rename_i tbl0 i src e es
    obtain ⟨ihE, ihA, ihP⟩ := ih
    have hlen : i < tbl0.length := (List.get?_eq_some.mp hget).1
    obtain ⟨hA1, hA2, hA3⟩ := unallocated_parts halloc
    have heq : recordDefProjection tbl0 i src =
        tbl0.set i ⟨e.isFuncArg, e.kind,
          ⟨some src, e.storage.projectedOperandNum, e.storage.storageAddress,
            true, e.storage.isUseProjection, e.storage.initializesEnum,
            e.storage.isRewritten⟩⟩ := by
      have hgetE : tbl0[i]? = some e := by
        rw [← List.get?_eq_getElem?]
        exact hget
      simp [recordDefProjection, modifyStorage, hget, hgetE]
    have hagree : ∀ a, a ≠ i →
        (recordDefProjection tbl0 i src).get? a = tbl0.get? a := by
      intro a ha
      rw [heq]
      exact get?_set_ne tbl0 i _ a ha
    have hself : (recordDefProjection tbl0 i src).get? i =
        some ⟨e.isFuncArg, e.kind,
          ⟨some src, e.storage.projectedOperandNum, e.storage.storageAddress,
            true, e.storage.isUseProjection, e.storage.initializesEnum,
            e.storage.isRewritten⟩⟩ := by
      rw [heq]
      exact get?_set_same tbl0 i _ hlen
    refine ⟨?_, ?_, ?_⟩
    · intro j ej hj
      by_cases hji : j = i
      · subst hji
        rw [hself] at hj
        obtain rfl := Option.some.inj hj
        simp [hA2]
      · rw [hagree j hji] at hj
        exact ihE j ej hj
    · refine acyclic_update hagree ?_ ihA ?_ (Ne.symm hne)
      · intro b hs
        obtain ⟨e2, hg, _, hid⟩ := hs
        rw [hself] at hg
        obtain rfl := Option.some.inj hg
        exact (Option.some.inj hid).symm
      · exact fun hr =>
          not_reaches_of_nonproj hgetsrc
            (nonproj_of_unallocated hallocsrc) i hr
    · intro j ej hj _
      by_cases hji : j = i
      · subst hji
        rw [hself] at hj
        obtain rfl := Option.some.inj hj
        exact hA1
      · rw [hagree j hji] at hj
        exact ihP j ej hj (by assumption)
  | useProj hre hbase hgetr haddr hrec ih =>
    rename_i tbl0 tbl1 i user opNum r re en ae
    obtain ⟨ihE, ihA, ihP⟩ := ih
    obtain ⟨e, hget, halloc, rfl⟩ := recordComposingUseProjection_eq hrec
    have hlen : i < tbl0.length := (List.get?_eq_some.mp hget).1
    obtain ⟨hA1, hA2, hA3⟩ := unallocated_parts halloc
    have hagree : ∀ a, a ≠ i →
        (tbl0.set i ⟨e.isFuncArg, e.kind,
          ⟨some user, some opNum, e.storage.storageAddress,
            e.storage.isDefProjection, true,
            e.storage.initializesEnum || en, e.storage.isRewritten⟩⟩).get? a =
        tbl0.get? a := fun a ha => get?_set_ne tbl0 i _ a ha
    have hself := get?_set_same tbl0 i
      ⟨e.isFuncArg, e.kind,
        ⟨some user, some opNum, e.storage.storageAddress,
          e.storage.isDefProjection, true,
          e.storage.initializesEnum || en, e.storage.isRewritten⟩⟩ hlen
    have hri : ¬ i = r := by
      intro hir
      rw [← hir] at hgetr
      rw [hget] at hgetr
      obtain rfl := Option.some.inj hgetr
      rw [hA1] at haddr
      simp at haddr
    have hnr : ¬ ChainReaches tbl0 user i := by
      intro hr
      rcases getBaseStorage_reaches tbl0 ae _ user r hbase i hr with hir |
        ⟨e2, hg2, hp2⟩
      · exact hri hir
      · rw [hget] at hg2
        obtain rfl := Option.some.inj hg2
        rw [nonproj_of_unallocated halloc] at hp2
        exact Bool.false_ne_true hp2
    have hti : user ≠ i := by
      intro hui
      rcases getBaseStorage_start tbl0 ae _ user r hbase with hur |
        ⟨e2, hg2, hp2⟩
      · exact hri (hui ▸ hur)
      · rw [hui, hget] at hg2
        obtain rfl := Option.some.inj hg2
        rw [nonproj_of_unallocated halloc] at hp2
        exact Bool.false_ne_true hp2
    refine ⟨?_, ?_, ?_⟩
    · intro j ej hj
      by_cases hji : j = i
      · subst hji
        rw [hself] at hj
        obtain rfl := Option.some.inj hj
        simp [hA3]
      · rw [hagree j hji] at hj
        exact ihE j ej hj
    · refine acyclic_update hagree ?_ ihA hnr hti
      intro b hs
      obtain ⟨e2, hg, _, hid⟩ := hs
      rw [hself] at hg
      obtain rfl := Option.some.inj hg
      exact (Option.some.inj hid).symm
    · intro j ej hj _
      by_cases hji : j = i
      · subst hji
        rw [hself] at hj
        obtain rfl := Option.some.inj hj
        exact hA1
      · rw [hagree j hji] at hj
        exact ihP j ej hj (by assumption)
  | phiCoalesce hre hnr hpi hrem hphi ih =>
    rename_i tbl0 tbl1 tbl2 i phi
    obtain ⟨ihE, ihA, ihP⟩ := ih
    obtain ⟨e, a0, hget, haddr, rfl⟩ := removeAllocation_eq hrem
    have hlen : i < tbl0.length := (List.get?_eq_some.mp hget).1
    obtain ⟨e1, hget1, halloc1, rfl⟩ := recordPhiUseProjection_eq hphi
    have he1 : e1 = ⟨e.isFuncArg, e.kind, e.storage.withoutAddress⟩ := by
      rw [get?_set_same tbl0 i _ hlen] at hget1
      exact (Option.some.inj hget1).symm
    obtain ⟨hB1, hB2, hB3⟩ := unallocated_parts halloc1
    rw [List.set_set]
    have hagree : ∀ b, b ≠ i →
        (tbl0.set i ⟨e1.isFuncArg, e1.kind,
          ⟨some phi, none, e1.storage.storageAddress,
            e1.storage.isDefProjection, true, e1.storage.initializesEnum,
            e1.storage.isRewritten⟩⟩).get? b = tbl0.get? b :=
      fun b hb => get?_set_ne tbl0 i _ b hb
    have hself := get?_set_same tbl0 i
      ⟨e1.isFuncArg, e1.kind,
        ⟨some phi, none, e1.storage.storageAddress,
          e1.storage.isDefProjection, true, e1.storage.initializesEnum,
          e1.storage.isRewritten⟩⟩ hlen
    refine ⟨?_, ?_, ?_⟩
    · intro j ej hj
      by_cases hji : j = i
      · subst hji
        rw [hself] at hj
        obtain rfl := Option.some.inj hj
        simp [hB3]
      · rw [hagree j hji] at hj
        exact ihE j ej hj
    · refine acyclic_update hagree ?_ ihA hnr hpi
      intro b hs
      obtain ⟨e2, hg, _, hid⟩ := hs
      rw [hself] at hg
      obtain rfl := Option.some.inj hg
      exact (Option.some.inj hid).symm
    · intro j ej hj _
      by_cases hji : j = i
      · subst hji
        rw [hself] at hj
        obtain rfl := Option.some.inj hj
        exact hB1
      · rw [hagree j hji] at hj
        exact ihP j ej hj (by assumption)

/-- C8 (amended): over every storage table the allocator's mutations can
reach, each entry is marked as at most one of def projection and use
projection, projection chains are acyclic, projections own no directly
materialized address during allocation, and an allocated entry is a
projection root (a non-projection) exactly when its storage owns a
directly materialized address.  (The claim's "assigned exactly once" part
fails: see the counterexample, where a coalesced phi operand is assigned
a root allocation and later reassigned as a phi projection.) -/
theorem c8_storage_invariants (tbl : Table) (h : ReachableTable tbl) :
    ExclusiveKinds tbl ∧ Acyclic tbl ∧ ProjectionsUnmaterialized tbl ∧
    ∀ i e, tbl.get? i = some e → e.storage.isAllocated = true →
      (e.storage.isProjection = false ↔
        e.storage.storageAddress.isSome = true) := by
  obtain ⟨hE, hA, hP⟩ := c8_invariants_aux tbl h
  refine ⟨hE, hA, hP, ?_⟩
  intro i e hget halloc
  constructor
  · intro hnp
    unfold ValueStorage.isAllocated at halloc
    unfold ValueStorage.isProjection at hnp
    rcases Bool.or_eq_false_iff.mp hnp with ⟨h1, h2⟩
    rw [h1, h2] at halloc
    simpa using halloc
  · intro hsome
    by_cases hp : e.storage.isProjection = true
    · rw [hP i e hget hp] at hsome
      simp at hsome
    · exact Bool.eq_false_iff.mpr hp

/-- Witness for C8 at a concrete reachable table: fresh stack storage for
ordinal 0, then a composing use projection of ordinal 1 into ordinal 0. -/
theorem c8_storage_invariants_witness :
    ExclusiveKinds tblC8w ∧ Acyclic tblC8w :=
  have hreach : ReachableTable tblC8w :=
    @ReachableTable.useProj tblC8a tblC8w 1 0 3 0
      ⟨false, .other, ⟨none, none, some (.allocStack 0), false, false,
        false, false⟩⟩ false true
      (@ReachableTable.stackAlloc tblC8init 0 0 emptyEntry
        (ReachableTable.init 2) (by decide) (by decide))
      (by decide) (by decide) (by decide) (by decide)
  ⟨(c8_storage_invariants tblC8w hreach).1,
    (c8_storage_invariants tblC8w hreach).2.1⟩

/-- C8 counterexample: storage entries are not assigned exactly once.  On
a function with one owned value fed to a phi that the coalescer coalesces
with it, the allocator first gives the operand fresh stack storage and
later, while allocating the phi, removes that allocation and reassigns the
operand as a phi projection: ordinal 0 receives two assignments. -/
theorem c8_counterexample :
    (allocateOpaqueStorageRun cfgC8).2 =
      [.stackAlloc 0 0, .stackAlloc 1 1, .phiProj 0 1] ∧
    countAssigns (allocateOpaqueStorageRun cfgC8).2 0 = 2 ∧
    ¬ countAssigns (allocateOpaqueStorageRun cfgC8).2 0 = 1 := by
  decide

/-- C5 counterexample: in the rewritten predecessor block the temporary's
`dealloc_stack` precedes the branch (position 4, with the branch at
position 5); no `dealloc_stack` of the temporary follows the branch. -/
theorem c5_counterexample :
    (materializeOperand [.copyAddr 1 0 true] emptyStorage 7 0 1 5 ++
        [PInst.branch]).get? 4 = some (.deallocStack 5) ∧
    (materializeOperand [.copyAddr 1 0 true] emptyStorage 7 0 1 5 ++
        [PInst.branch]).get? 5 = some .branch ∧
    ∀ k < (materializeOperand [.copyAddr 1 0 true] emptyStorage 7 0 1 5 ++
        [PInst.branch]).length,
      (materializeOperand [.copyAddr 1 0 true] emptyStorage 7 0 1 5 ++
          [PInst.branch]).get? k = some .branch →
      ¬ (materializeOperand [.copyAddr 1 0 true] emptyStorage 7 0 1 5 ++
          [PInst.branch]).get? (k + 1) = some (.deallocStack 5) := by
  decide

end AddressLowering
